import Mathlib

/-!
Verification of the dotty file-virtualization engine (`src/utils/fs.rs`,
`src/utils/path.rs`, `src/cmds.rs`, `src/main.rs`) against its
natural-language specification.

The filesystem is shallowly embedded as a finite association list from
absolute paths (component lists) to nodes (regular file with content,
directory, or symbolic link).  A directory's children are all keys that
extend its key.  Paths appearing as keys are canonical: symlink
indirection is represented only by `Node.symlink` entries, and resolving
a path follows the chain of symlink nodes (fuel-bounded).  Fallible
filesystem operations return the (possibly partially mutated) state
together with an `Except` outcome, mirroring the Rust functions that
return `Result` while mutating the real filesystem.
-/

namespace Dotty

/-- A filesystem path, as its list of components (already split; the root is `[]`). -/
abbrev P := List String

/-- What `lstat` can see at a single path: a regular file with byte content,
a directory, or a symbolic link holding its raw target. -/
inductive Node where
  | file (content : String)
  | dir
  | symlink (target : P)
deriving DecidableEq

/-- `true` exactly on symlink nodes (the model of `Metadata::is_symlink`). -/
def Node.isSymlink : Node → Bool
  | .symlink _ => true
  | _ => false

/-- Filesystem state: a finite association list from paths to nodes.
Earlier entries shadow later ones with the same key. -/
abbrev FS := List (P × Node)

/-- Look up the node stored at path `p` (first matching entry). -/
def lookupFS : FS → P → Option Node
  | [], _ => none
  | e :: rest, p => if e.1 = p then some e.2 else lookupFS rest p

/-- Delete the entry at exactly path `p` (model of `fs::remove_file` /
`fs::remove_dir` succeeding: only the single key disappears). -/
def eraseKey (fs : FS) (p : P) : FS :=
  fs.filter (fun e => decide (e.1 ≠ p))

/-- All entries of the subtree rooted at `src`, re-keyed below `dst`
(the keys keep their relative path under the new root). -/
def mapSub (fs : FS) (src dst : P) : FS :=
  fs.filterMap (fun e =>
    if src.isPrefixOf e.1 then some (dst ++ e.1.drop src.length, e.2) else none)

/-- The pure effect of `fs::rename src dst`: the whole subtree under `src`
moves under `dst`, replacing whatever was at `dst`. -/
def renameTree (fs : FS) (src dst : P) : FS :=
  mapSub fs src dst
    ++ fs.filter (fun e => !src.isPrefixOf e.1 && !dst.isPrefixOf e.1)

/-- The pure effect of `copy_recursively src dst`: every entry of the
subtree under `src` is duplicated at the corresponding path under `dst`,
overwriting entries already there; unrelated `dst` entries survive
(`fs::copy` overwrites files, `create_dir_all` merges directories). -/
def copyTree (fs : FS) (src dst : P) : FS :=
  mapSub fs src dst
    ++ fs.filter (fun e =>
        !(dst.isPrefixOf e.1 && (lookupFS fs (src ++ e.1.drop dst.length)).isSome))

/-- The proper (strict) prefixes of a path, shortest first. -/
def properPrefixes (p : P) : List P :=
  (List.range p.length).map (fun n => p.take n)

/-- The pure effect of `create_parent_dir p` (`fs::create_dir_all` on the
parent): every missing strict ancestor of `p` becomes a directory.
I/O failure modes of `create_dir_all` are not modelled. -/
def mkParents (fs : FS) (p : P) : FS :=
  ((properPrefixes p).filterMap (fun q =>
    if lookupFS fs q = none then some (q, Node.dir) else none)) ++ fs

/-- Resolve a path through chains of symlink nodes, fuel-bounded (the model
of `fs::canonicalize`; intermediate components of keys are canonical by
representation).  `none` models resolution failure (dangling link or cycle). -/
def resolvePath (fs : FS) : Nat → P → Option P
  | 0, _ => none
  | fuel + 1, p =>
    match lookupFS fs p with
    | some (Node.symlink t) => resolvePath fs fuel t
    | some _ => some p
    | none => none

/-- The model of `Path::exists`: resolution succeeds (follows symlinks,
`false` on a dangling link). -/
def pathExists (fs : FS) (fuel : Nat) (p : P) : Bool :=
  (resolvePath fs fuel p).isSome

/-- Error taxonomy of the engine, one constructor per distinct error return
of `src/utils/fs.rs` exercised by the model. -/
inductive FsError where
  | sourceMissing
  | resolveFailed
  | notOverwritingSymlink
  | notOverwritingFile
  | alreadyExistsInRepo
  | renameFailed
  | symlinkFailed
  | removeFailed
deriving DecidableEq

deriving instance DecidableEq for Except

/-- `rename from to` of `fs.rs`: create the destination's parents, then move.
Fails (leaving the parents created) when the source is absent. -/
def renameOp (fs : FS) (src dst : P) : FS × Except FsError Unit :=
  let fs1 := mkParents fs dst
  if (lookupFS fs1 src).isSome then (renameTree fs1 src dst, Except.ok ())
  else (fs1, Except.error FsError.renameFailed)

/-- `symlink original link` of `fs.rs`: create the link's parents, then
create a symlink at `link` pointing to `original`; fails if `link` exists
(`unix_fs::symlink` gives `EEXIST`). -/
def symlinkOp (fs : FS) (original lnk : P) : FS × Except FsError Unit :=
  let fs1 := mkParents fs lnk
  if (lookupFS fs1 lnk).isSome then (fs1, Except.error FsError.symlinkFailed)
  else ((lnk, Node.symlink original) :: fs1, Except.ok ())

/-- `copy from to` of `fs.rs`: create the destination's parents, then copy
recursively.  I/O failure of the copy itself is not modelled. -/
def copyOp (fs : FS) (src dst : P) : FS × Except FsError Unit :=
  (copyTree (mkParents fs dst) src dst, Except.ok ())

/-- `remove path` of `fs.rs` (`fs::remove_file`): deletes a file or symlink
entry; fails on a directory or an absent path. -/
def removeOp (fs : FS) (p : P) : FS × Except FsError Unit :=
  match lookupFS fs p with
  | some Node.dir => (fs, Except.error FsError.removeFailed)
  | some _ => (eraseKey fs p, Except.ok ())
  | none => (fs, Except.error FsError.removeFailed)

/-- `move_then_symlink from to` of `fs.rs` (`fromP`/`toP` since `from` is a
Lean keyword).  Returns `true` for a fresh move (`Moved`), `false` for the
already-linked no-op, and `alreadyExistsInRepo` for the conflict error. -/
def move_then_symlink (fuel : Nat) (fs : FS) (fromP toP : P) :
    FS × Except FsError Bool :=
  if pathExists fs fuel toP then
    match lookupFS fs fromP with
    | some (Node.symlink _) =>
      match resolvePath fs fuel fromP with
      | some r =>
        if r = toP then (fs, Except.ok false)
        else (fs, Except.error FsError.alreadyExistsInRepo)
      | none => (fs, Except.error FsError.alreadyExistsInRepo)
    | _ => (fs, Except.error FsError.alreadyExistsInRepo)
  else
    match renameOp fs fromP toP with
    | (fs1, Except.ok _) =>
      match symlinkOp fs1 toP fromP with
      | (fs2, Except.ok _) => (fs2, Except.ok true)
      | (fs2, Except.error e) => (fs2, Except.error e)
    | (fs1, Except.error e) => (fs1, Except.error e)

/-- The final creation step of `restore`: `symlink(from, to)` when restoring
symlinks, else `copy(from, to)`. -/
def restoreCreate (fs : FS) (fromP toP : P) (symlinks : Bool) :
    FS × Except FsError Unit :=
  if symlinks then symlinkOp fs fromP toP else copyOp fs fromP toP

/-- `restore from to overwrite symlinks` of `fs.rs`, branch for branch:
source-missing check, then `symlink_metadata(to)` dispatch over the decision
table, then the create step. -/
def restoreOp (fuel : Nat) (fs : FS) (fromP toP : P) (overwrite : Option P)
    (symlinks : Bool) : FS × Except FsError Unit :=
  if !pathExists fs fuel fromP then (fs, Except.error FsError.sourceMissing)
  else
    match lookupFS fs toP with
    | none => restoreCreate fs fromP toP symlinks
    | some md =>
      if md.isSymlink then
        match resolvePath fs fuel toP with
        | none => (fs, Except.error FsError.resolveFailed)
        | some resolved =>
          if resolved = fromP then
            if symlinks then (fs, Except.ok ())
            else
              match removeOp fs toP with
              | (fs1, Except.ok _) => restoreCreate fs1 fromP toP symlinks
              | (fs1, Except.error e) => (fs1, Except.error e)
          else if overwrite.isSome then
            match removeOp fs toP with
            | (fs1, Except.ok _) => restoreCreate fs1 fromP toP symlinks
            | (fs1, Except.error e) => (fs1, Except.error e)
          else (fs, Except.error FsError.notOverwritingSymlink)
      else
        match overwrite with
        | some dest =>
          match renameOp fs toP dest with
          | (fs1, Except.ok _) => restoreCreate fs1 fromP toP symlinks
          | (fs1, Except.error e) => (fs1, Except.error e)
        | none => (fs, Except.error FsError.notOverwritingFile)

/-- `is_empty dir` of `fs.rs`: the directory has no entry strictly below it. -/
def isEmptyDir (fs : FS) (d : P) : Bool :=
  fs.all (fun e => !(d.isPrefixOf e.1 && decide (e.1 ≠ d)))

/-- `OverwriteTempDir::drop`: remove the scratch directory only when it is
an existing directory that ended up empty. -/
def dropTempDir (fs : FS) (d : P) : FS :=
  match lookupFS fs d with
  | some Node.dir => if isEmptyDir fs d then eraseKey fs d else fs
  | _ => fs

/-- The batch-restore loop of `main.rs::restore` / `cmds.rs::restore`: for
each manifest entry `e`, restore `repo ++ e` to `root ++ e` with scratch
entry `td ++ e`; the `?` operator propagates the first per-entry error. -/
def restoreBatch (fuel : Nat) (fs : FS) (repo root : P) (entries : List P)
    (ow : Option P) (symlinks : Bool) : FS × Except FsError Unit :=
  match entries with
  | [] => (fs, Except.ok ())
  | e :: rest =>
    match restoreOp fuel fs (repo ++ e) (root ++ e) (ow.map (fun d => d ++ e))
        symlinks with
    | (fs1, Except.ok _) => restoreBatch fuel fs1 repo root rest ow symlinks
    | (fs1, Except.error err) => (fs1, Except.error err)

/-! ### Classifier (`cmds.rs::flatten_paths_to_add`)

For the directory walk the filesystem is modelled as a forest of trees,
each work-stack element pairing the (canonical) absolute path of a node
with its subtree.  `is_dir` / `read_dir` become case analysis on the
tree; `git::check_open` is the `isGit` flag of a directory. -/

/-- A filesystem subtree as seen by the walk: a plain file, or a directory
flagged with whether probing it opens a git repository, with named children. -/
inductive FsTree where
  | file : FsTree
  | dir (isGit : Bool) (children : List (String × FsTree)) : FsTree

/-- Leaf tag of `flatten_paths_to_add` (`PathType` of `cmds.rs`). -/
inductive PathType where
  | file
  | gitRepo
deriving DecidableEq

/-- Work-stack entries for the children of the directory at `p`. -/
def childEntries (p : P) (cs : List (String × FsTree)) : List (P × FsTree) :=
  cs.map (fun c => (p ++ [c.1], c.2))

/-- The walk's pop loop, returning every path popped from the stack, in pop
order.  The stack's head is its top; `Vec::append` + `Vec::pop` makes the
last child pop first, hence `reverse`.  `fuel` bounds the number of loop
iterations (the Rust loop terminates because the filesystem is finite);
every theorem below holds for every fuel. -/
def flattenVisitsGo : Nat → List (P × FsTree) → List P
  | 0, _ => []
  | _ + 1, [] => []
  | fuel + 1, (p, FsTree.file) :: rest => p :: flattenVisitsGo fuel rest
  | fuel + 1, (p, FsTree.dir true _) :: rest => p :: flattenVisitsGo fuel rest
  | fuel + 1, (p, FsTree.dir false cs) :: rest =>
    p :: flattenVisitsGo fuel ((childEntries p cs).reverse ++ rest)

/-- The walk's pop loop, returning the flattened leaf list
(`Vec<(PathBuf, PathType)>`): files and git-repository directories are
emitted, other directories are expanded into their children. -/
def flattenLeavesGo : Nat → List (P × FsTree) → List (P × PathType)
  | 0, _ => []
  | _ + 1, [] => []
  | fuel + 1, (p, FsTree.file) :: rest => (p, PathType.file) :: flattenLeavesGo fuel rest
  | fuel + 1, (p, FsTree.dir true _) :: rest =>
    (p, PathType.gitRepo) :: flattenLeavesGo fuel rest
  | fuel + 1, (p, FsTree.dir false cs) :: rest =>
    flattenLeavesGo fuel ((childEntries p cs).reverse ++ rest)

/-- Well-formedness of a subtree as produced by a real directory read:
the children of any directory have pairwise distinct names. -/
inductive WfTree : FsTree → Prop where
  | file : WfTree FsTree.file
  | dir {g : Bool} {cs : List (String × FsTree)} :
      (cs.map Prod.fst).Nodup → (∀ c ∈ cs, WfTree c.2) → WfTree (FsTree.dir g cs)

/-- Two paths are incomparable when neither is an ancestor-or-equal of the
other (requested paths that do not overlap). -/
def PathIncomp (a b : P) : Prop := ¬ a <+: b ∧ ¬ b <+: a

/-! ### PathResolver (`utils/path.rs`) -/

/-- `common_base_path` of `path.rs`, on paths as component lists: fold that
restarts from the current item whenever the accumulator is the empty path,
and otherwise keeps the component-wise common prefix (the `zip` loop). -/
def common_base_path (paths : List (List String)) : List String :=
  paths.foldl
    (fun accum item =>
      if accum.isEmpty then item else commonComponents accum item) []
where
  /-- The `zip`-and-`break` loop body: longest common component prefix. -/
  commonComponents : List String → List String → List String
    | a :: as_, b :: bs => if a = b then a :: commonComponents as_ bs else []
    | _, _ => []

/-- Modelled from the spec's words, for comparison: "the longest shared
prefix of path components across all inputs, component-wise, left-to-right,
stopping at first mismatch; empty input yields an empty path". -/
def lcpSpec : List (List String) → List String
  | [] => []
  | p :: ps => ps.foldl common_base_path.commonComponents p

/-- A Rust `Path`: whether it is absolute, plus its named components
(`RootDir` is the `abs` flag; `/` is `⟨true, []⟩`, `""` is `⟨false, []⟩`). -/
structure RPath where
  abs : Bool
  comps : List String
deriving DecidableEq

/-- `Path::join`: an absolute argument replaces the whole path, a relative
one is appended. -/
def joinR (a b : RPath) : RPath :=
  if b.abs then b else ⟨a.abs, a.comps ++ b.comps⟩

/-- `Path::parent`: strip the last component; `None` for `/` and for the
empty relative path. -/
def parentR (p : RPath) : Option RPath :=
  match p.comps with
  | [] => none
  | _ => some ⟨p.abs, p.comps.dropLast⟩

/-- Component-by-component resolution against the association-list
filesystem: walk the components, following symlink entries (restarting at
the target), requiring every intermediate component to be a directory.
Models what `Path::exists` / `Path::canonicalize` see for a full path. -/
def resolveComps (fs : FS) : Nat → P → P → Option P
  | 0, _, _ => none
  | _ + 1, acc, [] => some acc
  | fuel + 1, acc, c :: rest =>
    match lookupFS fs (acc ++ [c]) with
    | none => none
    | some (Node.symlink t) => resolveComps fs fuel [] (t ++ rest)
    | some Node.dir => resolveComps fs fuel (acc ++ [c]) rest
    | some (Node.file _) => if rest.isEmpty then some (acc ++ [c]) else none

/-- Fully canonicalize a path: relative paths are interpreted against `cwd`
(assumed canonical), then resolved component-wise. -/
def canonFull (fs : FS) (fuel : Nat) (cwd : P) (p : RPath) : Option P :=
  resolveComps fs fuel [] ((if p.abs then [] else cwd) ++ p.comps)

/-- `Path::exists` on an `RPath`. -/
def existsR (fs : FS) (fuel : Nat) (cwd : P) (p : RPath) : Bool :=
  (canonFull fs fuel cwd p).isSome

/-- The two error returns of `canonicalize_missing`. -/
inductive CanonErr where
  | canonicalizeFailed
  | unknownParent
deriving DecidableEq

/-- Recursion of `canonicalize_missing`, structural on a depth bound; the
wrapper always supplies `p.comps.length + 1`, which suffices because each
`parent` step drops one component, so the `0` case is unreachable. -/
def canonMissingGo (fs : FS) (fuel : Nat) (cwd : P) :
    Nat → RPath → Except CanonErr RPath
  | 0, _ => Except.error CanonErr.unknownParent
  | n + 1, q =>
    if existsR fs fuel cwd q then
      match canonFull fs fuel cwd q with
      | some c => Except.ok ⟨true, c⟩
      | none => Except.error CanonErr.canonicalizeFailed
    else
      match parentR q with
      | some par =>
        match canonMissingGo fs fuel cwd n par with
        | Except.ok cp => Except.ok (joinR cp q)
        | Except.error e => Except.error e
      | none => Except.error CanonErr.unknownParent

/-- `canonicalize_missing` of `path.rs`: canonicalize an existing path, else
recurse on the parent and `join` back the (full) path — `join` with the
original path, exactly as the source writes `canonicalize_missing(parent)?.join(path)`. -/
def canonicalize_missing (fs : FS) (fuel : Nat) (cwd : P) (p : RPath) :
    Except CanonErr RPath :=
  canonMissingGo fs fuel cwd (p.comps.length + 1) p

/-! ### Basic lemmas about the association-list filesystem -/

theorem isPrefixOf_eq_decide (a b : P) : a.isPrefixOf b = decide (a <+: b) := by
  induction a generalizing b with
  | nil => simp [List.isPrefixOf]
  | cons x xs ih =>
    cases b with
    | nil => simp [List.isPrefixOf]
    | cons y ys =>
      by_cases hxy : x = y <;> simp [List.isPrefixOf, ih, List.cons_prefix_cons, hxy]

theorem lookupFS_append (l₁ l₂ : FS) (q : P) :
    lookupFS (l₁ ++ l₂) q = (lookupFS l₁ q).or (lookupFS l₂ q) := by
  induction l₁ with
  | nil => simp [lookupFS]
  | cons e rest ih =>
    by_cases h : e.1 = q <;> simp [lookupFS, h, ih]

theorem lookupFS_filterKey (fs : FS) (pb : P → Bool) (q : P) :
    lookupFS (fs.filter (fun e => pb e.1)) q
      = if pb q then lookupFS fs q else none := by
  induction fs with
  | nil => simp [lookupFS]
  | cons e rest ih =>
    by_cases hk : e.1 = q
    · subst hk
      by_cases hp : pb e.1 <;> simp [lookupFS, hp, ih]
    · by_cases hp : pb e.1 <;> simp [lookupFS, hp, hk, ih]

theorem lookupFS_eraseKey (fs : FS) (p q : P) :
    lookupFS (eraseKey fs p) q = if q = p then none else lookupFS fs q := by
  have h := lookupFS_filterKey fs (fun x => decide (x ≠ p)) q
  simpa [eraseKey] using h

/-- Key arithmetic: under `dst <+: q`, an entry key `src ++ t` maps to `q`
under re-keying iff it is the canonical counterpart of `q`. -/
theorem rekey_eq_iff {dst q : P} (t : P) (hq : dst <+: q) :
    dst ++ t = q ↔ t = q.drop dst.length := by
  obtain ⟨r, rfl⟩ := hq
  constructor
  · intro h
    have := List.append_cancel_left h
    simp [this, List.drop_left]
  · intro h
    simp [h, List.drop_left]

theorem lookupFS_mapSub (fs : FS) (src dst q : P) :
    lookupFS (mapSub fs src dst) q
      = if dst <+: q then lookupFS fs (src ++ q.drop dst.length) else none := by
  induction fs with
  | nil => simp [mapSub, lookupFS]
  | cons e rest ih =>
    obtain ⟨k, v⟩ := e
    by_cases hdq : dst <+: q
    · have hq2 : dst ++ q.drop dst.length = q := by
        obtain ⟨r, rfl⟩ := hdq; rw [List.drop_left]
      simp only [hdq, if_pos] at ih ⊢
      by_cases hsp : src <+: k
      · obtain ⟨t, rfl⟩ := hsp
        by_cases he : t = q.drop dst.length
        · subst he
          simp [mapSub, lookupFS, isPrefixOf_eq_decide, List.prefix_append,
            List.drop_left, hq2]
        · have hne : ¬ dst ++ t = q := fun h => he ((rekey_eq_iff t hdq).mp h)
          have hne2 : ¬ src ++ t = src ++ q.drop dst.length :=
            fun h => he (List.append_cancel_left h)
          simpa [mapSub, lookupFS, isPrefixOf_eq_decide, List.prefix_append,
            List.drop_left, hne, hne2] using ih
      · have hne : ¬ k = src ++ q.drop dst.length := by
          intro h; exact hsp (h ▸ List.prefix_append src _)
        simpa [mapSub, lookupFS, isPrefixOf_eq_decide, hsp, hne] using ih
    · simp only [hdq, if_neg, not_false_iff] at ih ⊢
      by_cases hsp : src <+: k
      · obtain ⟨t, rfl⟩ := hsp
        have hne : ¬ dst ++ t = q := by
          intro h
          exact hdq (h ▸ List.prefix_append dst t)
        simpa [mapSub, lookupFS, isPrefixOf_eq_decide, List.prefix_append,
          List.drop_left, hne] using ih
      · simpa [mapSub, lookupFS, isPrefixOf_eq_decide, hsp] using ih

theorem lookupFS_renameTree (fs : FS) (src dst q : P) :
    lookupFS (renameTree fs src dst) q
      = if dst <+: q then lookupFS fs (src ++ q.drop dst.length)
        else if src <+: q then none
        else lookupFS fs q := by
  rw [renameTree, lookupFS_append, lookupFS_mapSub]
  rw [lookupFS_filterKey fs (fun x => !src.isPrefixOf x && !dst.isPrefixOf x) q]
  by_cases hdq : dst <+: q
  · simp [hdq, isPrefixOf_eq_decide]
  · by_cases hsq : src <+: q <;> simp [hdq, hsq, isPrefixOf_eq_decide]

theorem lookupFS_copyTree (fs : FS) (src dst q : P) :
    lookupFS (copyTree fs src dst) q
      = if dst <+: q ∧ (lookupFS fs (src ++ q.drop dst.length)).isSome
        then lookupFS fs (src ++ q.drop dst.length)
        else lookupFS fs q := by
  rw [copyTree, lookupFS_append, lookupFS_mapSub]
  rw [lookupFS_filterKey fs
    (fun x => !(dst.isPrefixOf x && (lookupFS fs (src ++ x.drop dst.length)).isSome)) q]
  by_cases hdq : dst <+: q
  · by_cases hs : (lookupFS fs (src ++ q.drop dst.length)).isSome
    · obtain ⟨v, hv⟩ := Option.isSome_iff_exists.mp hs
      simp [hdq, hs, isPrefixOf_eq_decide, hv]
    · simp only [Option.not_isSome_iff_eq_none] at hs
      simp [hdq, hs, isPrefixOf_eq_decide]
  · simp [hdq, isPrefixOf_eq_decide]

theorem mem_properPrefixes {p q : P} :
    q ∈ properPrefixes p ↔ q <+: p ∧ q.length < p.length := by
  constructor
  · intro h
    obtain ⟨n, hn, rfl⟩ := by simpa [properPrefixes] using h
    constructor
    · exact List.take_prefix n p
    · simpa [Nat.le_of_lt hn] using hn
  · rintro ⟨hpre, hlen⟩
    have : q = p.take q.length := List.prefix_iff_eq_take.mp hpre
    refine (by simpa [properPrefixes] using ⟨q.length, hlen, this.symm⟩)

theorem lookupFS_mkParents (fs : FS) (p q : P) :
    lookupFS (mkParents fs p) q
      = if q ∈ properPrefixes p ∧ lookupFS fs q = none then some Node.dir
        else lookupFS fs q := by
  rw [mkParents, lookupFS_append]
  have hmain : ∀ ps : List P,
      lookupFS (ps.filterMap (fun x =>
        if lookupFS fs x = none then some (x, Node.dir) else none)) q
        = if q ∈ ps ∧ lookupFS fs q = none then some Node.dir else none := by
    intro ps
    induction ps with
    | nil => simp [lookupFS]
    | cons x rest ih =>
      by_cases hx : lookupFS fs x = none
      · by_cases hq : x = q
        · subst hq; simp [lookupFS, hx]
        · simp [lookupFS, hx, hq, ih, Ne.symm hq]
      · by_cases hq : x = q
        · subst hq; simp [lookupFS, hx, ih]
        · simp [lookupFS, hx, hq, ih, Ne.symm hq]
  rw [hmain]
  by_cases hc : q ∈ properPrefixes p ∧ lookupFS fs q = none
  · simp [hc]
  · simp only [hc, if_neg, not_false_iff, Option.none_or]

/-! ### C3: conflict fails without mutation -/

/-- C3.  If the store target `toP` already exists and the original
`fromP` is not a symlink resolving to `toP`, then `move_then_symlink`
fails with the conflict error ("already exists in repo") and returns the
filesystem completely unchanged: no mutation happens before the error. -/
theorem move_then_symlink_conflict_no_mutation
    (fuel : Nat) (fs : FS) (fromP toP : P)
    (hto : pathExists fs fuel toP = true)
    (hnot : ∀ t, lookupFS fs fromP = some (Node.symlink t) →
      resolvePath fs fuel fromP ≠ some toP) :
    move_then_symlink fuel fs fromP toP
      = (fs, Except.error FsError.alreadyExistsInRepo) := by
  cases hl : lookupFS fs fromP with
  | none => simp [move_then_symlink, hto, hl]
  | some n =>
    cases n with
    | file c => simp [move_then_symlink, hto, hl]
    | dir => simp [move_then_symlink, hto, hl]
    | symlink t =>
      cases hr : resolvePath fs fuel fromP with
      | none => simp [move_then_symlink, hto, hl, hr]
      | some r =>
        have hrt : r ≠ toP := fun h => hnot t hl (h ▸ hr)
        simp [move_then_symlink, hto, hl, hr, hrt]

/-- Concrete instance for C3: store file `r/f` exists with content "a",
original `h/f` is a plain file with different content "b"; adding fails
with the conflict error and mutates nothing. -/
theorem move_then_symlink_conflict_no_mutation_witness :
    move_then_symlink 1 [(["r", "f"], Node.file "a"), (["h", "f"], Node.file "b")]
        ["h", "f"] ["r", "f"]
      = ([(["r", "f"], Node.file "a"), (["h", "f"], Node.file "b")],
         Except.error FsError.alreadyExistsInRepo) :=
  move_then_symlink_conflict_no_mutation 1
    [(["r", "f"], Node.file "a"), (["h", "f"], Node.file "b")]
    ["h", "f"] ["r", "f"] (by decide)
    (fun t h => by simp [lookupFS] at h)

/-! ### C4: idempotence of add -/

/-- C4.  From a clean initial state (the original `fromP` holds a
non-symlink node, the store target `toP` is absent, and the two paths do
not overlap), a first `move_then_symlink` returns `Moved` (`ok true`) and
a second call with the same arguments returns `AlreadyLinked`
(`ok false`) while leaving the filesystem byte-identical to the state
after the first call. -/
theorem move_then_symlink_idempotent
    (fuel : Nat) (fs : FS) (fromP toP : P) (n : Node)
    (hfuel : 2 ≤ fuel)
    (hsrc : lookupFS fs fromP = some n)
    (hns : n.isSymlink = false)
    (hdst : lookupFS fs toP = none)
    (h1 : fromP.isPrefixOf toP = false)
    (h2 : toP.isPrefixOf fromP = false) :
    (move_then_symlink fuel fs fromP toP).2 = Except.ok true ∧
    move_then_symlink fuel (move_then_symlink fuel fs fromP toP).1 fromP toP
      = ((move_then_symlink fuel fs fromP toP).1, Except.ok false) := by
  obtain ⟨k, rfl⟩ : ∃ k, fuel = k + 2 := ⟨fuel - 2, by omega⟩
  have hp1 : ¬ fromP <+: toP := by
    rw [isPrefixOf_eq_decide] at h1; exact of_decide_eq_false h1
  have hp2 : ¬ toP <+: fromP := by
    rw [isPrefixOf_eq_decide] at h2; exact of_decide_eq_false h2
  have hnotmem1 : fromP ∉ properPrefixes toP :=
    fun hm => hp1 (mem_properPrefixes.mp hm).1
  have hex_to : pathExists fs (k + 2) toP = false := by
    simp [pathExists, resolvePath, hdst]
  have hlook1 : lookupFS (mkParents fs toP) fromP = some n := by
    rw [lookupFS_mkParents]; simp [hnotmem1, hsrc]
  have hlook2 : lookupFS (renameTree (mkParents fs toP) fromP toP) fromP = none := by
    rw [lookupFS_renameTree]
    simp [hp2, List.prefix_rfl]
  have hnotmem2 : fromP ∉ properPrefixes fromP := by
    intro hm; exact absurd (mem_properPrefixes.mp hm).2 (lt_irrefl _)
  have hlook3 :
      lookupFS (mkParents (renameTree (mkParents fs toP) fromP toP) fromP) fromP
        = none := by
    rw [lookupFS_mkParents]; simp [hnotmem2, hlook2]
  have hcall1 : move_then_symlink (k + 2) fs fromP toP
      = ((fromP, Node.symlink toP) ::
          mkParents (renameTree (mkParents fs toP) fromP toP) fromP,
         Except.ok true) := by
    simp [move_then_symlink, renameOp, symlinkOp, hex_to, hlook1, hlook3]
  have hne : fromP ≠ toP := fun h => hp1 (h ▸ List.prefix_rfl)
  have hnotmem3 : toP ∉ properPrefixes fromP :=
    fun hm => hp2 (mem_properPrefixes.mp hm).1
  have hl_to :
      lookupFS ((fromP, Node.symlink toP) ::
        mkParents (renameTree (mkParents fs toP) fromP toP) fromP) toP
        = some n := by
    rw [lookupFS, if_neg hne, lookupFS_mkParents]
    rw [lookupFS_renameTree]
    simp [hnotmem3, List.prefix_rfl, List.drop_length, hlook1]
  have hstep : ∀ m,
      resolvePath ((fromP, Node.symlink toP) ::
        mkParents (renameTree (mkParents fs toP) fromP toP) fromP) (m + 1) toP
        = some toP := by
    intro m
    cases n with
    | file c => simp [resolvePath, hl_to]
    | dir => simp [resolvePath, hl_to]
    | symlink t => simp [Node.isSymlink] at hns
  have hl_from1 :
      lookupFS ((fromP, Node.symlink toP) ::
        mkParents (renameTree (mkParents fs toP) fromP toP) fromP) fromP
        = some (Node.symlink toP) := by
    rw [lookupFS, if_pos rfl]
  have hcall2 :
      move_then_symlink (k + 2)
        ((fromP, Node.symlink toP) ::
          mkParents (renameTree (mkParents fs toP) fromP toP) fromP) fromP toP
      = (((fromP, Node.symlink toP) ::
          mkParents (renameTree (mkParents fs toP) fromP toP) fromP),
         Except.ok false) := by
    have hex2 : pathExists ((fromP, Node.symlink toP) ::
        mkParents (renameTree (mkParents fs toP) fromP toP) fromP)
        (k + 2) toP = true := by
      simp [pathExists, hstep (k + 1)]
    have hres_from :
        resolvePath ((fromP, Node.symlink toP) ::
          mkParents (renameTree (mkParents fs toP) fromP toP) fromP)
          (k + 2) fromP = some toP := by
      rw [show k + 2 = (k + 1) + 1 from rfl, resolvePath, hl_from1]
      simpa using hstep k
    simp [move_then_symlink, hex2, hl_from1, hres_from]
  rw [hcall1]
  exact ⟨rfl, hcall2⟩

/-- Concrete instance for C4: adding home file `h/f` into store directory
`r` moves it on the first call and is a byte-identical no-op returning
`AlreadyLinked` on the second. -/
theorem move_then_symlink_idempotent_witness :
    (move_then_symlink 2
        [([], Node.dir), (["h"], Node.dir), (["h", "f"], Node.file "x"),
         (["r"], Node.dir)] ["h", "f"] ["r", "f"]).2 = Except.ok true ∧
    move_then_symlink 2
        (move_then_symlink 2
          [([], Node.dir), (["h"], Node.dir), (["h", "f"], Node.file "x"),
           (["r"], Node.dir)] ["h", "f"] ["r", "f"]).1 ["h", "f"] ["r", "f"]
      = ((move_then_symlink 2
          [([], Node.dir), (["h"], Node.dir), (["h", "f"], Node.file "x"),
           (["r"], Node.dir)] ["h", "f"] ["r", "f"]).1, Except.ok false) :=
  move_then_symlink_idempotent 2
    [([], Node.dir), (["h"], Node.dir), (["h", "f"], Node.file "x"),
     (["r"], Node.dir)]
    ["h", "f"] ["r", "f"] (Node.file "x")
    (by decide) (by decide) (by decide) (by decide) (by decide) (by decide)

/-! ### More helper lemmas -/

theorem prefixComparable {a b c : P} (h1 : a <+: c) (h2 : b <+: c) :
    a <+: b ∨ b <+: a := by
  rcases Nat.le_total a.length b.length with h | h
  · exact Or.inl (List.prefix_of_prefix_length_le h1 h2 h)
  · exact Or.inr (List.prefix_of_prefix_length_le h2 h1 h)

theorem mem_of_lookupFS {fs : FS} {q : P} {v : Node}
    (h : lookupFS fs q = some v) : (q, v) ∈ fs := by
  induction fs with
  | nil => simp [lookupFS] at h
  | cons e rest ih =>
    by_cases hk : e.1 = q
    · rw [lookupFS, if_pos hk] at h
      obtain ⟨k2, v2⟩ := e
      cases hk
      cases h
      exact List.mem_cons_self _ _
    · rw [lookupFS, if_neg hk] at h
      exact List.mem_cons_of_mem _ (ih h)

/-! ### C2: dangling symlink at the restore destination -/

/-- Counterexample to C2 as stated: `h/f` is a dangling symlink (target
`h/g` does not exist).  The claim predicts that with `overwrite` present
the link is removed and the new link is created (success), and that
without `overwrite` the call fails with the would-overwrite-link error.
The code instead fails with the resolution error in both cases. -/
theorem restore_dangling_symlink_cx :
    (restoreOp 3
        [([], Node.dir), (["r"], Node.dir), (["r", "f"], Node.file "a"),
         (["h"], Node.dir), (["h", "f"], Node.symlink ["h", "g"])]
        ["r", "f"] ["h", "f"] (some ["t", "f"]) true).2
      = Except.error FsError.resolveFailed ∧
    (restoreOp 3
        [([], Node.dir), (["r"], Node.dir), (["r", "f"], Node.file "a"),
         (["h"], Node.dir), (["h", "f"], Node.symlink ["h", "g"])]
        ["r", "f"] ["h", "f"] none true).2
      = Except.error FsError.resolveFailed ∧
    (restoreOp 3
        [([], Node.dir), (["r"], Node.dir), (["r", "f"], Node.file "a"),
         (["h"], Node.dir), (["h", "f"], Node.symlink ["h", "g"])]
        ["r", "f"] ["h", "f"] (some ["t", "f"]) true).2
      ≠ Except.ok () ∧
    (restoreOp 3
        [([], Node.dir), (["r"], Node.dir), (["r", "f"], Node.file "a"),
         (["h"], Node.dir), (["h", "f"], Node.symlink ["h", "g"])]
        ["r", "f"] ["h", "f"] none true).2
      ≠ Except.error FsError.notOverwritingSymlink := by
  decide

/-- C2 (amended).  When the entry at `toP` is a symlink whose resolution
fails (a dangling link), `restore` fails with the resolution error
("failed to resolve"), *regardless* of `overwrite` and of the restore
mode, and the filesystem is unchanged. -/
theorem restore_dangling_symlink_resolution_error
    (fuel : Nat) (fs : FS) (fromP toP u : P) (overwrite : Option P)
    (symlinks : Bool)
    (hfrom : pathExists fs fuel fromP = true)
    (hlink : lookupFS fs toP = some (Node.symlink u))
    (hdangling : resolvePath fs fuel toP = none) :
    restoreOp fuel fs fromP toP overwrite symlinks
      = (fs, Except.error FsError.resolveFailed) := by
  simp [restoreOp, hfrom, hlink, Node.isSymlink, hdangling]

/-- Concrete instance for C2 (amended): the dangling link `h/f` makes the
restore fail with the resolution error even though `overwrite` is present. -/
theorem restore_dangling_symlink_resolution_error_witness :
    restoreOp 3
        [([], Node.dir), (["r"], Node.dir), (["r", "f"], Node.file "a"),
         (["h"], Node.dir), (["h", "f"], Node.symlink ["h", "g"])]
        ["r", "f"] ["h", "f"] (some ["t", "f"]) true
      = ([([], Node.dir), (["r"], Node.dir), (["r", "f"], Node.file "a"),
          (["h"], Node.dir), (["h", "f"], Node.symlink ["h", "g"])],
         Except.error FsError.resolveFailed) :=
  restore_dangling_symlink_resolution_error 3
    [([], Node.dir), (["r"], Node.dir), (["r", "f"], Node.file "a"),
     (["h"], Node.dir), (["h", "f"], Node.symlink ["h", "g"])]
    ["r", "f"] ["h", "f"] ["h", "g"] (some ["t", "f"]) true
    (by decide) (by decide) (by decide)

/-! ### C1: a batch restore aborts at the first failing entry -/

/-- Counterexample to C1 as stated: restoring entries `f1` then `f2`, where
`f1` hits an existing regular file without `overwrite`.  The claim predicts
the batch continues and `f2` is still restored; the code's `?` operator
aborts the whole run: the batch returns `f1`'s error, `h/f2` was never
created, even though restoring `f2` alone would have succeeded. -/
theorem restore_batch_stops_cx :
    restoreBatch 3
        [([], Node.dir), (["r"], Node.dir), (["r", "f1"], Node.file "a"),
         (["r", "f2"], Node.file "b"), (["h"], Node.dir),
         (["h", "f1"], Node.file "x")]
        ["r"] ["h"] [["f1"], ["f2"]] none true
      = ([([], Node.dir), (["r"], Node.dir), (["r", "f1"], Node.file "a"),
          (["r", "f2"], Node.file "b"), (["h"], Node.dir),
          (["h", "f1"], Node.file "x")],
         Except.error FsError.notOverwritingFile) ∧
    lookupFS
        [([], Node.dir), (["r"], Node.dir), (["r", "f1"], Node.file "a"),
         (["r", "f2"], Node.file "b"), (["h"], Node.dir),
         (["h", "f1"], Node.file "x")] ["h", "f2"] = none ∧
    (restoreOp 3
        [([], Node.dir), (["r"], Node.dir), (["r", "f1"], Node.file "a"),
         (["r", "f2"], Node.file "b"), (["h"], Node.dir),
         (["h", "f1"], Node.file "x")]
        ["r", "f2"] ["h", "f2"] none true).2 = Except.ok () := by
  decide

/-- C1 (amended).  The batch restore loop propagates the first per-entry
error and aborts: when the first entry's restore fails, the result of the
whole batch is exactly that entry's error and state, and the remaining
entries are never processed. -/
theorem restore_batch_aborts_on_entry_error
    (fuel : Nat) (fs : FS) (repo root e : P) (rest : List P)
    (ow : Option P) (symlinks : Bool) (err : FsError)
    (h : (restoreOp fuel fs (repo ++ e) (root ++ e)
          (ow.map (fun d => d ++ e)) symlinks).2 = Except.error err) :
    restoreBatch fuel fs repo root (e :: rest) ow symlinks
      = ((restoreOp fuel fs (repo ++ e) (root ++ e)
          (ow.map (fun d => d ++ e)) symlinks).1, Except.error err) := by
  unfold restoreBatch
  rcases hres : restoreOp fuel fs (repo ++ e) (root ++ e)
      (ow.map (fun d => d ++ e)) symlinks with ⟨fs1, r⟩
  rw [hres] at h
  cases r with
  | ok a => simp at h
  | error e2 =>
    simp only at h
    cases h
    rfl

/-- Concrete instance for C1 (amended): the failing first entry `f1` makes
the whole batch return its error. -/
theorem restore_batch_aborts_on_entry_error_witness :
    restoreBatch 3
        [([], Node.dir), (["r"], Node.dir), (["r", "f1"], Node.file "a"),
         (["h"], Node.dir), (["h", "f1"], Node.file "x")]
        ["r"] ["h"] [["f1"], ["f2"]] none true
      = ((restoreOp 3
          [([], Node.dir), (["r"], Node.dir), (["r", "f1"], Node.file "a"),
           (["h"], Node.dir), (["h", "f1"], Node.file "x")]
          (["r"] ++ ["f1"]) (["h"] ++ ["f1"])
          ((none : Option P).map (fun d => d ++ ["f1"])) true).1,
         Except.error FsError.notOverwritingFile) :=
  restore_batch_aborts_on_entry_error 3
    [([], Node.dir), (["r"], Node.dir), (["r", "f1"], Node.file "a"),
     (["h"], Node.dir), (["h", "f1"], Node.file "x")]
    ["r"] ["h"] ["f1"] [["f2"]] none true FsError.notOverwritingFile
    (by decide)

/-! ### C9: a stale symlink is deleted outright, never displaced -/

/-- C9.  When `restore` with `overwrite` enabled (scratch entry `dest`)
meets a symlink at `toP` that resolves somewhere other than `fromP`, the
call succeeds, the scratch subtree under `dest` is completely untouched
(nothing corresponding to the symlink is displaced there), and in symlink
mode the stale link has been replaced by a link to `fromP`. -/
theorem restore_overwrite_symlink_removed_not_displaced
    (fuel : Nat) (fs : FS) (fromP toP dest u r : P) (symlinks : Bool)
    (hfrom : pathExists fs fuel fromP = true)
    (hlink : lookupFS fs toP = some (Node.symlink u))
    (hres : resolvePath fs fuel toP = some r)
    (hne : r ≠ fromP)
    (hd1 : dest.isPrefixOf toP = false)
    (hd2 : toP.isPrefixOf dest = false) :
    (restoreOp fuel fs fromP toP (some dest) symlinks).2 = Except.ok () ∧
    (∀ s : P,
      lookupFS (restoreOp fuel fs fromP toP (some dest) symlinks).1 (dest ++ s)
        = lookupFS fs (dest ++ s)) ∧
    (symlinks = true →
      lookupFS (restoreOp fuel fs fromP toP (some dest) symlinks).1 toP
        = some (Node.symlink fromP)) := by
  have hp1 : ¬ dest <+: toP := by
    rw [isPrefixOf_eq_decide] at hd1; exact of_decide_eq_false hd1
  have hp2 : ¬ toP <+: dest := by
    rw [isPrefixOf_eq_decide] at hd2; exact of_decide_eq_false hd2
  have hnotmem : toP ∉ properPrefixes toP := by
    intro hm; exact absurd (mem_properPrefixes.mp hm).2 (lt_irrefl _)
  have herase : lookupFS (eraseKey fs toP) toP = none := by
    rw [lookupFS_eraseKey]; simp
  have hmk : lookupFS (mkParents (eraseKey fs toP) toP) toP = none := by
    rw [lookupFS_mkParents]; simp [hnotmem, herase]
  have hexcl : ∀ s : P, ¬ toP <+: dest ++ s := by
    intro s hcon
    rcases prefixComparable hcon (List.prefix_append dest s) with h | h
    · exact hp2 h
    · exact hp1 h
  have hneq : ∀ s : P, ¬ toP = dest ++ s := by
    intro s hcon
    exact hexcl s (hcon ▸ List.prefix_rfl)
  have hsub : ∀ s : P,
      lookupFS (mkParents (eraseKey fs toP) toP) (dest ++ s)
        = lookupFS fs (dest ++ s) := by
    intro s
    have hnm : dest ++ s ∉ properPrefixes toP := by
      intro hm
      exact hp1 ((List.prefix_append dest s).trans (mem_properPrefixes.mp hm).1)
    rw [lookupFS_mkParents]
    simp only [hnm, false_and, if_neg, not_false_iff]
    rw [lookupFS_eraseKey, if_neg (fun h => hneq s h.symm)]
  cases symlinks with
  | true =>
    have hcomp : restoreOp fuel fs fromP toP (some dest) true
        = ((toP, Node.symlink fromP) :: mkParents (eraseKey fs toP) toP,
           Except.ok ()) := by
      simp [restoreOp, hfrom, hlink, Node.isSymlink, hres, hne, removeOp,
        restoreCreate, symlinkOp, hmk]
    rw [hcomp]
    refine ⟨rfl, ?_, ?_⟩
    · intro s
      rw [lookupFS, if_neg (hneq s)]
      exact hsub s
    · intro _
      rw [lookupFS, if_pos rfl]
  | false =>
    have hcomp : restoreOp fuel fs fromP toP (some dest) false
        = (copyTree (mkParents (eraseKey fs toP) toP) fromP toP,
           Except.ok ()) := by
      simp [restoreOp, hfrom, hlink, Node.isSymlink, hres, hne, removeOp,
        restoreCreate, copyOp]
    rw [hcomp]
    refine ⟨rfl, ?_, ?_⟩
    · intro s
      rw [lookupFS_copyTree]
      simp only [hexcl s, false_and, if_neg, not_false_iff]
      exact hsub s
    · intro hcon; cases hcon

/-- Concrete instance for C9: the stale link `h/f → h/old` is removed, the
scratch path `t/f` stays empty, and `h/f` ends up linked to `r/f`. -/
theorem restore_overwrite_symlink_removed_not_displaced_witness :
    (restoreOp 3
        [([], Node.dir), (["r"], Node.dir), (["r", "f"], Node.file "a"),
         (["h"], Node.dir), (["h", "f"], Node.symlink ["h", "old"]),
         (["h", "old"], Node.file "o"), (["t"], Node.dir)]
        ["r", "f"] ["h", "f"] (some ["t", "f"]) true).2 = Except.ok () ∧
    lookupFS (restoreOp 3
        [([], Node.dir), (["r"], Node.dir), (["r", "f"], Node.file "a"),
         (["h"], Node.dir), (["h", "f"], Node.symlink ["h", "old"]),
         (["h", "old"], Node.file "o"), (["t"], Node.dir)]
        ["r", "f"] ["h", "f"] (some ["t", "f"]) true).1 (["t", "f"] ++ [])
      = lookupFS
        [([], Node.dir), (["r"], Node.dir), (["r", "f"], Node.file "a"),
         (["h"], Node.dir), (["h", "f"], Node.symlink ["h", "old"]),
         (["h", "old"], Node.file "o"), (["t"], Node.dir)] (["t", "f"] ++ []) ∧
    lookupFS (restoreOp 3
        [([], Node.dir), (["r"], Node.dir), (["r", "f"], Node.file "a"),
         (["h"], Node.dir), (["h", "f"], Node.symlink ["h", "old"]),
         (["h", "old"], Node.file "o"), (["t"], Node.dir)]
        ["r", "f"] ["h", "f"] (some ["t", "f"]) true).1 ["h", "f"]
      = some (Node.symlink ["r", "f"]) := by
  have h := restore_overwrite_symlink_removed_not_displaced 3
    [([], Node.dir), (["r"], Node.dir), (["r", "f"], Node.file "a"),
     (["h"], Node.dir), (["h", "f"], Node.symlink ["h", "old"]),
     (["h", "old"], Node.file "o"), (["t"], Node.dir)]
    ["r", "f"] ["h", "f"] ["t", "f"] ["h", "old"] ["h", "old"] true
    (by decide) (by decide) (by decide) (by decide) (by decide) (by decide)
  exact ⟨h.1, h.2.1 [], h.2.2 rfl⟩

/-! ### C5: overwrite displaces into the scratch area, never deletes -/

/-- C5.  Restoring with `overwrite` (scratch directory `td`, scratch entry
`td ++ rel` for the entry's relative path `rel`) over an existing
non-symlink node at `toP`: the call succeeds, the whole displaced subtree
is found unchanged under the scratch entry (`lookup` at `td ++ rel ++ s`
now returns what `toP ++ s` held before), the scratch directory is *not*
auto-removed at the end of the run (it holds a displaced entry), and in
general the scratch directory's drop handler removes it only when it holds
no entries. -/
theorem restore_overwrite_displaces_to_scratch
    (fuel : Nat) (fs : FS) (fromP toP td rel : P) (n : Node) (symlinks : Bool)
    (hfrom : pathExists fs fuel fromP = true)
    (hto : lookupFS fs toP = some n)
    (hns : n.isSymlink = false)
    (hrel : rel ≠ [])
    (hd1 : (td ++ rel).isPrefixOf toP = false)
    (hd2 : toP.isPrefixOf (td ++ rel) = false) :
    (restoreOp fuel fs fromP toP (some (td ++ rel)) symlinks).2 = Except.ok () ∧
    (∀ s : P,
      lookupFS (restoreOp fuel fs fromP toP (some (td ++ rel)) symlinks).1
          ((td ++ rel) ++ s)
        = lookupFS fs (toP ++ s)) ∧
    dropTempDir (restoreOp fuel fs fromP toP (some (td ++ rel)) symlinks).1 td
      = (restoreOp fuel fs fromP toP (some (td ++ rel)) symlinks).1 ∧
    (∀ (g : FS) (q : P), dropTempDir g q ≠ g → isEmptyDir g q = true) := by
  have hp1 : ¬ td ++ rel <+: toP := by
    rw [isPrefixOf_eq_decide] at hd1; exact of_decide_eq_false hd1
  have hp2 : ¬ toP <+: td ++ rel := by
    rw [isPrefixOf_eq_decide] at hd2; exact of_decide_eq_false hd2
  have hgen : ∀ (g : FS) (q : P), dropTempDir g q ≠ g → isEmptyDir g q = true := by
    intro g q hne2
    by_contra hcon
    rw [Bool.not_eq_true] at hcon
    cases hl : lookupFS g q with
    | none => exact hne2 (by simp [dropTempDir, hl])
    | some v =>
      cases v with
      | file c => exact hne2 (by simp [dropTempDir, hl])
      | symlink t => exact hne2 (by simp [dropTempDir, hl])
      | dir => exact hne2 (by simp [dropTempDir, hl, hcon])
  have hnotmem2 : toP ∉ properPrefixes (td ++ rel) :=
    fun hm => hp2 (mem_properPrefixes.mp hm).1
  have hlook1 : lookupFS (mkParents fs (td ++ rel)) toP = some n := by
    rw [lookupFS_mkParents]; simp [hnotmem2, hto]
  have hmatch : restoreOp fuel fs fromP toP (some (td ++ rel)) symlinks
      = restoreCreate (renameTree (mkParents fs (td ++ rel)) toP (td ++ rel))
          fromP toP symlinks := by
    cases n with
    | symlink t => simp [Node.isSymlink] at hns
    | file c =>
      simp [restoreOp, hfrom, hto, Node.isSymlink, renameOp, hlook1]
    | dir =>
      simp [restoreOp, hfrom, hto, Node.isSymlink, renameOp, hlook1]
  have hexcl : ∀ s : P, ¬ toP <+: (td ++ rel) ++ s := by
    intro s hcon
    rcases prefixComparable hcon (List.prefix_append (td ++ rel) s) with h | h
    · exact hp2 h
    · exact hp1 h
  have hneq : ∀ s : P, ¬ toP = (td ++ rel) ++ s := by
    intro s hcon
    exact hexcl s (hcon ▸ List.prefix_rfl)
  have hlook2 :
      lookupFS (renameTree (mkParents fs (td ++ rel)) toP (td ++ rel)) toP
        = none := by
    rw [lookupFS_renameTree, if_neg hp1, if_pos List.prefix_rfl]
  have hsub : ∀ s : P,
      lookupFS (renameTree (mkParents fs (td ++ rel)) toP (td ++ rel))
          ((td ++ rel) ++ s)
        = lookupFS fs (toP ++ s) := by
    intro s
    rw [lookupFS_renameTree]
    have hpre : td ++ rel <+: (td ++ rel) ++ s := List.prefix_append _ _
    rw [if_pos hpre, List.drop_left]
    rw [lookupFS_mkParents]
    have hnm : toP ++ s ∉ properPrefixes (td ++ rel) := by
      intro hm
      exact hp2 ((List.prefix_append toP s).trans (mem_properPrefixes.mp hm).1)
    simp [hnm]
  have hb : ∀ s : P,
      lookupFS (restoreOp fuel fs fromP toP (some (td ++ rel)) symlinks).1
          ((td ++ rel) ++ s)
        = lookupFS fs (toP ++ s) := by
    intro s
    rw [hmatch]
    cases symlinks with
    | true =>
      have hnm : (td ++ rel) ++ s ∉ properPrefixes toP := by
        intro hm
        exact hp1 ((List.prefix_append (td ++ rel) s).trans
          (mem_properPrefixes.mp hm).1)
      simp only [restoreCreate, if_pos, symlinkOp, hlook2]
      have hmk2 :
          lookupFS (mkParents
            (renameTree (mkParents fs (td ++ rel)) toP (td ++ rel)) toP) toP
            = none := by
        rw [lookupFS_mkParents]
        have : toP ∉ properPrefixes toP := by
          intro hm; exact absurd (mem_properPrefixes.mp hm).2 (lt_irrefl _)
        simp [this, hlook2]
      simp only [hmk2, Option.isSome_none, Bool.false_eq_true, if_neg,
        not_false_iff]
      rw [lookupFS, if_neg (hneq s)]
      rw [lookupFS_mkParents]
      simp only [hnm, false_and, if_neg, not_false_iff]
      exact hsub s
    | false =>
      simp only [restoreCreate, Bool.false_eq_true, if_neg, not_false_iff,
        copyOp]
      rw [lookupFS_copyTree]
      simp only [hexcl s, false_and, if_neg, not_false_iff]
      have hnm : (td ++ rel) ++ s ∉ properPrefixes toP := by
        intro hm
        exact hp1 ((List.prefix_append (td ++ rel) s).trans
          (mem_properPrefixes.mp hm).1)
      rw [lookupFS_mkParents]
      simp only [hnm, false_and, if_neg, not_false_iff]
      exact hsub s
  have hok : (restoreOp fuel fs fromP toP (some (td ++ rel)) symlinks).2
      = Except.ok () := by
    rw [hmatch]
    cases symlinks with
    | true =>
      have hmk2 :
          lookupFS (mkParents
            (renameTree (mkParents fs (td ++ rel)) toP (td ++ rel)) toP) toP
            = none := by
        rw [lookupFS_mkParents]
        have : toP ∉ properPrefixes toP := by
          intro hm; exact absurd (mem_properPrefixes.mp hm).2 (lt_irrefl _)
        simp [this, hlook2]
      simp [restoreCreate, symlinkOp, hmk2]
    | false =>
      simp [restoreCreate, copyOp]
  refine ⟨hok, hb, ?_, hgen⟩
  have hdisp : lookupFS
      (restoreOp fuel fs fromP toP (some (td ++ rel)) symlinks).1 (td ++ rel)
      = some n := by
    have h1 := hb []
    rw [List.append_nil, List.append_nil] at h1
    rw [h1, hto]
  have hmem := mem_of_lookupFS hdisp
  have hempty : isEmptyDir
      (restoreOp fuel fs fromP toP (some (td ++ rel)) symlinks).1 td = false := by
    apply List.all_eq_false.mpr
    refine ⟨(td ++ rel, n), hmem, ?_⟩
    have hppre : td <+: td ++ rel := List.prefix_append td rel
    have hne3 : td ++ rel ≠ td := by
      intro hcon
      apply hrel
      have : td ++ rel = td ++ [] := by simpa using hcon
      exact List.append_cancel_left this
    simp [isPrefixOf_eq_decide, hppre, hne3]
  cases hl : lookupFS
      (restoreOp fuel fs fromP toP (some (td ++ rel)) symlinks).1 td with
  | none => simp [dropTempDir, hl]
  | some v =>
    cases v with
    | file c => simp [dropTempDir, hl]
    | symlink t => simp [dropTempDir, hl]
    | dir => simp [dropTempDir, hl, hempty]

/-- Concrete instance for C5: restoring `r/f` over the unrelated file
`h/f` with scratch entry `t/f` succeeds, the old content "old" is found
unchanged at `t/f`, and the scratch directory `t` is not removed. -/
theorem restore_overwrite_displaces_to_scratch_witness :
    (restoreOp 3
        [([], Node.dir), (["r"], Node.dir), (["r", "f"], Node.file "a"),
         (["h"], Node.dir), (["h", "f"], Node.file "old"), (["t"], Node.dir)]
        ["r", "f"] ["h", "f"] (some (["t"] ++ ["f"])) true).2 = Except.ok () ∧
    lookupFS (restoreOp 3
        [([], Node.dir), (["r"], Node.dir), (["r", "f"], Node.file "a"),
         (["h"], Node.dir), (["h", "f"], Node.file "old"), (["t"], Node.dir)]
        ["r", "f"] ["h", "f"] (some (["t"] ++ ["f"])) true).1
        ((["t"] ++ ["f"]) ++ [])
      = lookupFS
        [([], Node.dir), (["r"], Node.dir), (["r", "f"], Node.file "a"),
         (["h"], Node.dir), (["h", "f"], Node.file "old"), (["t"], Node.dir)]
        (["h", "f"] ++ []) ∧
    dropTempDir (restoreOp 3
        [([], Node.dir), (["r"], Node.dir), (["r", "f"], Node.file "a"),
         (["h"], Node.dir), (["h", "f"], Node.file "old"), (["t"], Node.dir)]
        ["r", "f"] ["h", "f"] (some (["t"] ++ ["f"])) true).1 ["t"]
      = (restoreOp 3
        [([], Node.dir), (["r"], Node.dir), (["r", "f"], Node.file "a"),
         (["h"], Node.dir), (["h", "f"], Node.file "old"), (["t"], Node.dir)]
        ["r", "f"] ["h", "f"] (some (["t"] ++ ["f"])) true).1 := by
  have h := restore_overwrite_displaces_to_scratch 3
    [([], Node.dir), (["r"], Node.dir), (["r", "f"], Node.file "a"),
     (["h"], Node.dir), (["h", "f"], Node.file "old"), (["t"], Node.dir)]
    ["r", "f"] ["h", "f"] ["t"] ["f"] (Node.file "old") true
    (by decide) (by decide) (by decide) (by decide) (by decide) (by decide)
  exact ⟨h.1, h.2.1 [], h.2.2.1⟩

/-! ### C10: existing empty, non-version-controlled directories are dropped -/

/-- C10.  A flatten work stack all of whose entries are existing empty
non-git directories produces no leaf entry at all: each such directory is
expanded into its (empty) list of children and silently vanishes from the
output, so a batch add of only such directories has nothing to move into
the store. -/
theorem flatten_empty_dirs_no_leaves
    (fuel : Nat) (stack : List (P × FsTree))
    (h : ∀ e ∈ stack, e.2 = FsTree.dir false []) :
    flattenLeavesGo fuel stack = [] := by
  induction fuel generalizing stack with
  | zero => rfl
  | succ n ih =>
    cases stack with
    | nil => rfl
    | cons e rest =>
      obtain ⟨p, t⟩ := e
      have he : t = FsTree.dir false [] := h (p, t) (List.mem_cons_self _ _)
      subst he
      show flattenLeavesGo n ((childEntries p []).reverse ++ rest) = []
      simp only [childEntries, List.map_nil, List.reverse_nil, List.nil_append]
      exact ih rest (fun e2 h2 => h e2 (List.mem_cons_of_mem _ h2))

/-- Concrete instance for C10: flattening a single existing empty non-git
directory yields no leaves. -/
theorem flatten_empty_dirs_no_leaves_witness :
    flattenLeavesGo 5 [(["h", "d"], FsTree.dir false [])] = [] :=
  flatten_empty_dirs_no_leaves 5 [(["h", "d"], FsTree.dir false [])]
    (fun e he => by rw [List.mem_singleton.mp he])

/-! ### C7: the walk revisits paths under overlapping requests -/

/-- Counterexample to C7 as stated: requesting a directory (`h/d`)
together with one of its descendants (`h/d/f`) — both already
canonicalized — makes the walk visit and emit `h/d/f` twice, so a flatten
call over overlapping requests does revisit a filesystem path. -/
theorem flatten_visits_duplicate_cx :
    flattenVisitsGo 9
        [(["h", "d"], FsTree.dir false [("f", FsTree.file)]),
         (["h", "d", "f"], FsTree.file)]
      = [["h", "d"], ["h", "d", "f"], ["h", "d", "f"]] ∧
    ¬ (flattenVisitsGo 9
        [(["h", "d"], FsTree.dir false [("f", FsTree.file)]),
         (["h", "d", "f"], FsTree.file)]).Nodup := by
  decide

theorem flattenVisits_extend (fuel : Nat) :
    ∀ (stack : List (P × FsTree)) (q : P), q ∈ flattenVisitsGo fuel stack →
      ∃ e ∈ stack, e.1 <+: q := by
  induction fuel with
  | zero => intro stack q h; simp [flattenVisitsGo] at h
  | succ n ih =>
    intro stack q h
    cases stack with
    | nil => simp [flattenVisitsGo] at h
    | cons e rest =>
      obtain ⟨p, t⟩ := e
      cases t with
      | file =>
        simp only [flattenVisitsGo] at h
        rcases List.mem_cons.mp h with rfl | h2
        · exact ⟨(q, FsTree.file), List.mem_cons_self _ _, List.prefix_rfl⟩
        · obtain ⟨e2, he2, hp⟩ := ih rest q h2
          exact ⟨e2, List.mem_cons_of_mem _ he2, hp⟩
      | dir g cs =>
        cases g with
        | true =>
          simp only [flattenVisitsGo] at h
          rcases List.mem_cons.mp h with rfl | h2
          · exact ⟨(q, FsTree.dir true cs), List.mem_cons_self _ _,
              List.prefix_rfl⟩
          · obtain ⟨e2, he2, hp⟩ := ih rest q h2
            exact ⟨e2, List.mem_cons_of_mem _ he2, hp⟩
        | false =>
          simp only [flattenVisitsGo] at h
          rcases List.mem_cons.mp h with rfl | h2
          · exact ⟨(q, FsTree.dir false cs), List.mem_cons_self _ _,
              List.prefix_rfl⟩
          · obtain ⟨e2, he2, hp⟩ := ih _ q h2
            rcases List.mem_append.mp he2 with hc | hr
            · rw [List.mem_reverse] at hc
              obtain ⟨c, hcmem, heq⟩ := List.mem_map.mp hc
              refine ⟨(p, FsTree.dir false cs), List.mem_cons_self _ _, ?_⟩
              have : e2.1 = p ++ [c.1] := by rw [← heq]
              rw [this] at hp
              exact (List.prefix_append p [c.1]).trans hp
            · exact ⟨e2, List.mem_cons_of_mem _ hr, hp⟩

theorem snoc_prefix_cases {b a : P} {x : String} (h : b <+: a ++ [x]) :
    b <+: a ∨ b = a ++ [x] := by
  rcases Nat.lt_or_ge b.length (a ++ [x]).length with hl | hl
  · left
    refine List.prefix_of_prefix_length_le h (List.prefix_append a [x]) ?_
    have : (a ++ [x]).length = a.length + 1 := by simp
    omega
  · right
    exact h.eq_of_length (Nat.le_antisymm h.length_le hl)

theorem snoc_incomp_of_name_ne {a : P} {x y : String} (h : x ≠ y) :
    ¬ (a ++ [x] <+: a ++ [y]) := by
  intro hp
  have heq := hp.eq_of_length (by simp)
  have := List.append_cancel_left heq
  simp only [List.cons.injEq, and_true] at this
  exact h this

/-- C7 (amended).  The directory walk (an explicit fuel-bounded work
stack, no native recursion) never visits the same filesystem path twice
*provided* the seeded requests do not overlap: for any stack of
well-formed subtrees whose root paths are pairwise incomparable (no
duplicates, none an ancestor of another), the list of visited paths has
no duplicate.  With overlapping or duplicate requests this fails
(`flatten_visits_duplicate_cx`). -/
theorem flatten_no_revisit
    (fuel : Nat) (stack : List (P × FsTree))
    (hwf : ∀ e ∈ stack, WfTree e.2)
    (hdisj : stack.Pairwise (fun a b => PathIncomp a.1 b.1)) :
    (flattenVisitsGo fuel stack).Nodup := by
  induction fuel generalizing stack with
  | zero => simp [flattenVisitsGo]
  | succ n ih =>
    cases stack with
    | nil => simp [flattenVisitsGo]
    | cons e rest =>
      obtain ⟨p, t⟩ := e
      have hwf_head : WfTree t := hwf (p, t) (List.mem_cons_self _ _)
      have hwf_rest : ∀ e2 ∈ rest, WfTree e2.2 :=
        fun e2 he2 => hwf e2 (List.mem_cons_of_mem _ he2)
      have hdh := (List.pairwise_cons.mp hdisj).1
      have hdr := (List.pairwise_cons.mp hdisj).2
      cases t with
      | file =>
        simp only [flattenVisitsGo]
        refine List.nodup_cons.mpr ⟨?_, ih rest hwf_rest hdr⟩
        intro hmem
        obtain ⟨e2, he2, hp2⟩ := flattenVisits_extend n rest p hmem
        exact (hdh e2 he2).2 hp2
      | dir g cs =>
        cases g with
        | true =>
          simp only [flattenVisitsGo]
          refine List.nodup_cons.mpr ⟨?_, ih rest hwf_rest hdr⟩
          intro hmem
          obtain ⟨e2, he2, hp2⟩ := flattenVisits_extend n rest p hmem
          exact (hdh e2 he2).2 hp2
        | false =>
          simp only [flattenVisitsGo]
          cases hwf_head with
          | dir hnames hkids =>
          refine List.nodup_cons.mpr ⟨?_, ?_⟩
          · intro hmem
            obtain ⟨e2, he2, hp2⟩ := flattenVisits_extend n _ p hmem
            rcases List.mem_append.mp he2 with hc | hr
            · rw [List.mem_reverse] at hc
              obtain ⟨c, hcmem, heq⟩ := List.mem_map.mp hc
              have h1 : e2.1 = p ++ [c.1] := by rw [← heq]
              rw [h1] at hp2
              have := hp2.length_le
              simp at this
            · exact (hdh e2 hr).2 hp2
          · apply ih
            · intro e2 he2
              rcases List.mem_append.mp he2 with hc | hr
              · rw [List.mem_reverse] at hc
                obtain ⟨c, hcmem, heq⟩ := List.mem_map.mp hc
                have h2 : e2.2 = c.2 := by rw [← heq]
                rw [h2]
                exact hkids c hcmem
              · exact hwf_rest e2 hr
            · apply List.pairwise_append.mpr
              refine ⟨?_, hdr, ?_⟩
              · apply List.pairwise_reverse.mpr
                rw [childEntries, List.pairwise_map]
                have hnp : cs.Pairwise (fun c d => c.1 ≠ d.1) := by
                  have := hnames
                  rw [List.Nodup, List.pairwise_map] at this
                  exact this
                apply hnp.imp
                intro c d hne
                exact ⟨snoc_incomp_of_name_ne hne.symm, snoc_incomp_of_name_ne hne⟩
              · intro a ha b hb
                rw [List.mem_reverse] at ha
                obtain ⟨c, hcmem, heq⟩ := List.mem_map.mp ha
                have h1 : a.1 = p ++ [c.1] := by rw [← heq]
                rw [h1]
                constructor
                · intro hcon
                  exact (hdh b hb).1 ((List.prefix_append p [c.1]).trans hcon)
                · intro hcon
                  rcases snoc_prefix_cases hcon with h2 | h2
                  · exact (hdh b hb).2 h2
                  · exact (hdh b hb).1 (h2 ▸ List.prefix_append p [c.1])

/-- Concrete instance for C7 (amended): two non-overlapping requests (a
directory `a` with two children and an unrelated file `b`) are walked
without visiting any path twice. -/
theorem flatten_no_revisit_witness :
    (flattenVisitsGo 9
      [(["a"], FsTree.dir false [("x", FsTree.file), ("y", FsTree.file)]),
       (["b"], FsTree.file)]).Nodup := by
  apply flatten_no_revisit 9
  · intro e he
    rcases List.mem_cons.mp he with rfl | he2
    · exact WfTree.dir (by decide)
        (fun c hc => by
          rcases List.mem_cons.mp hc with rfl | hc2
          · exact WfTree.file
          · rw [List.mem_singleton.mp hc2]; exact WfTree.file)
    · rw [List.mem_singleton.mp he2]; exact WfTree.file
  · refine List.pairwise_cons.mpr ⟨?_, List.pairwise_singleton _ _⟩
    intro b hb
    rw [List.mem_singleton.mp hb]
    exact ⟨by decide, by decide⟩

/-! ### C8: common base path -/

/-- Counterexample to C8 as stated: for the non-empty input
`["a"], ["b"], ["a"]` the fold's accumulator becomes the empty path after
the mismatch `a`/`b`, and the `is_empty` guard then *restarts* from the
third item, returning `"a"` — which is not the longest shared prefix of
all inputs (that prefix is empty). -/
theorem common_base_path_reset_cx :
    common_base_path [["a"], ["b"], ["a"]] = ["a"] ∧
    lcpSpec [["a"], ["b"], ["a"]] = [] := by
  decide

/-- C8 (amended).  `common_base_path` returns the longest shared
component prefix (computed component-wise, left-to-right, stopping at the
first mismatch) for every non-empty input whose paths all share the same
first component — in particular for any set of absolute paths, whose
first component is the root; the empty input yields the empty path; and
the spec's example holds.  Without the shared-first-component proviso the
claim fails (`common_base_path_reset_cx`). -/
theorem common_base_path_longest_shared
    (c : String) (p0 : List String) (ps : List (List String))
    (hall : ∀ q ∈ p0 :: ps, q.head? = some c) :
    common_base_path (p0 :: ps) = lcpSpec (p0 :: ps) ∧
    common_base_path [] = [] ∧
    common_base_path
        [["/", "a", "b", "c"], ["/", "a", "b", "d"], ["/", "a", "x"]]
      = ["/", "a"] := by
  refine ⟨?_, rfl, by decide⟩
  have main : ∀ (qs : List (List String)) (acc t : List String),
      acc = c :: t → (∀ q ∈ qs, q.head? = some c) →
      List.foldl (fun accum item =>
          if accum.isEmpty then item
          else common_base_path.commonComponents accum item) acc qs
        = List.foldl common_base_path.commonComponents acc qs := by
    intro qs
    induction qs with
    | nil => intro acc t h1 h2; rfl
    | cons q qs2 ih =>
      intro acc t h1 h2
      subst h1
      have hq := h2 q (List.mem_cons_self _ _)
      obtain ⟨qt, rfl⟩ : ∃ qt, q = c :: qt := by
        cases q with
        | nil => simp at hq
        | cons a qt =>
          simp only [List.head?_cons, Option.some.injEq] at hq
          exact ⟨qt, by rw [hq]⟩
      simp only [List.foldl_cons]
      have hstep : (if (c :: t).isEmpty then (c :: qt)
          else common_base_path.commonComponents (c :: t) (c :: qt))
          = c :: common_base_path.commonComponents t qt := by
        simp [common_base_path.commonComponents]
      have hcc : common_base_path.commonComponents (c :: t) (c :: qt)
          = c :: common_base_path.commonComponents t qt := by
        simp [common_base_path.commonComponents]
      rw [hstep, hcc]
      exact ih _ _ rfl (fun q2 hq2 => h2 q2 (List.mem_cons_of_mem _ hq2))
  have h0 := hall p0 (List.mem_cons_self _ _)
  obtain ⟨t, rfl⟩ : ∃ t, p0 = c :: t := by
    cases p0 with
    | nil => simp at h0
    | cons a t =>
      simp only [List.head?_cons, Option.some.injEq] at h0
      exact ⟨t, by rw [h0]⟩
  show List.foldl _ [] ((c :: t) :: ps) = lcpSpec ((c :: t) :: ps)
  simp only [List.foldl_cons, List.isEmpty_nil, if_pos, lcpSpec]
  exact main ps (c :: t) t rfl
    (fun q hq => hall q (List.mem_cons_of_mem _ hq))

/-- Concrete instance for C8 (amended): two home-relative paths sharing
the first component `u`. -/
theorem common_base_path_longest_shared_witness :
    common_base_path [["u", "a", "b"], ["u", "a", "c"]]
        = lcpSpec [["u", "a", "b"], ["u", "a", "c"]] ∧
    common_base_path [] = [] ∧
    common_base_path
        [["/", "a", "b", "c"], ["/", "a", "b", "d"], ["/", "a", "x"]]
      = ["/", "a"] :=
  common_base_path_longest_shared "u" ["u", "a", "b"] [["u", "a", "c"]]
    (by decide)

/-! ### C6: `canonicalize_missing` discards the resolved ancestor -/

/-- C6 evidence.  On the filesystem where `/a` is a symlink to the
directory `/x` and `c` does not exist, the claim says
`canonicalize_missing /a/c` resolves the deepest existing ancestor `/a`
to `/x` and re-appends `c`, giving `/x/c`.  The code instead computes the
canonical ancestor (`/x`, third conjunct) but then discards it, because
`canonicalize_missing(parent)?.join(path)` joins the *absolute* original
path, and Rust's `Path::join` replaces the whole path by an absolute
argument: the call returns `/a/c` unresolved, contradicting both the
claim and the evident intent of the recursion. -/
theorem canonicalize_missing_discards_ancestor :
    canonicalize_missing
        [([], Node.dir), (["x"], Node.dir), (["a"], Node.symlink ["x"])]
        9 [] ⟨true, ["a", "c"]⟩
      = Except.ok ⟨true, ["a", "c"]⟩ ∧
    (RPath.mk true ["a", "c"]) ≠ RPath.mk true ["x", "c"] ∧
    canonFull
        [([], Node.dir), (["x"], Node.dir), (["a"], Node.symlink ["x"])]
        9 [] ⟨true, ["a"]⟩
      = some ["x"] := by
  decide

end Dotty
